import Mathlib

/-!
Verification of the pseudorandom-number generation core of `doryen-extra`
(`src/random/algorithms.rs`): the MT19937 Mersenne Twister, the CMWC4096
Complementary-Multiply-With-Carry generator, and the bit-exact uniform
float/double sampler built on top of either generator.

All `u32`/`u64` machine arithmetic is embedded as `ℕ` with explicit
`% 2^32` (resp. exact arithmetic where the Rust code provably does not
truncate).  Generator tables are embedded as `List ℕ`; `List.getD _ _ 0`
mirrors indexing, which in the source is always in bounds.
-/

set_option maxRecDepth 100000

namespace Doryen

/-- `2^32`, the modulus of `u32` wraparound arithmetic. -/
def U32 : ℕ := 4294967296

/-! ### Mersenne Twister (MT19937): constants and operations -/

/-- The seeding multiplier `Self::MT19937 = 1_812_433_253`. -/
def MT_SEED_MUL : ℕ := 1812433253

/-- One iteration of the source's `mt_init` loop.  The source computes
`Self::MT19937.wrapping_mul((mt[i-1] ^ (mt[i-1] >> 30)).wrapping_add(i))`,
i.e. the index `i` is added to the xor-shift *before* the multiplication. -/
def mtInitStep (prev i : ℕ) : ℕ :=
  (MT_SEED_MUL * (((prev ^^^ (prev >>> 30)) + i) % U32)) % U32

/-- Builds `len` successive entries of the seeding table starting at
index `i`, given the previous entry `prev`. -/
def mtInitGo : ℕ → ℕ → ℕ → List ℕ
  | 0, _, _ => []
  | len + 1, prev, i =>
    let v := mtInitStep prev i
    v :: mtInitGo len v (i + 1)

/-- `MersenneTwister::mt_init`: `mt[0] = seed`, then the loop for
`i` in `1..624`.  The `u32` seed parameter is embedded as `seed % 2^32`. -/
def mtInit (seed : ℕ) : List ℕ :=
  (seed % U32) :: mtInitGo 623 (seed % U32) 1

/-- Modelled from the spec: the claimed seeding recurrence
`table[i] = 1812433253 * (table[i-1] xor (table[i-1] >> 30)) + i`
(mod `2^32`), with the index added *after* the multiplication, as in the
published MT19937 reference.  Kept for comparison against `mtInit`. -/
def mtInitClaimStep (prev i : ℕ) : ℕ :=
  (MT_SEED_MUL * (prev ^^^ (prev >>> 30)) + i) % U32

/-- Companion of `mtInitClaimStep`: builds `len` successive entries. -/
def mtInitClaimGo : ℕ → ℕ → ℕ → List ℕ
  | 0, _, _ => []
  | len + 1, prev, i =>
    let v := mtInitClaimStep prev i
    v :: mtInitClaimGo len v (i + 1)

/-- Modelled from the spec: the whole seeding table under the claimed
(published-standard) recurrence. -/
def mtInitClaim (seed : ℕ) : List ℕ :=
  (seed % U32) :: mtInitClaimGo 623 (seed % U32) 1

/-- `MT19937_LOWER_MASK = 1 << 31` (the source's name for `0x8000_0000`). -/
def LOWER_MASK : ℕ := 2147483648

/-- `MT19937_UPPER_MASK = !MT19937_LOWER_MASK` on `u32`, i.e. `0x7FFF_FFFF`. -/
def UPPER_MASK : ℕ := 2147483647

/-- `MT19937_RATIONAL_NORMAL_FORM_TWIST_MATRIX_COEFFICIENTS`. -/
def TWIST_COEFF : ℕ := 0x9908B0DF

/-- Body of the twist's main loop (`for i in 0..623`), for one index `i`. -/
def twistMain (mt : List ℕ) (i : ℕ) : List ℕ :=
  let y := (mt.getD i 0 &&& LOWER_MASK) ||| (mt.getD (i + 1) 0 &&& UPPER_MASK)
  let v :=
    if y &&& 1 = 0 then mt.getD ((i + 397) % 624) 0 ^^^ (y >>> 1)
    else mt.getD ((i + 397) % 624) 0 ^^^ (y >>> 1) ^^^ TWIST_COEFF
  mt.set i v

/-- The source's explicit final twist step for index `623`
(`y` from `mt[623]` and `mt[0]`, new value from `mt[396]`). -/
def twistLast (mt : List ℕ) : List ℕ :=
  let y := (mt.getD 623 0 &&& LOWER_MASK) ||| (mt.getD 0 0 &&& UPPER_MASK)
  let v :=
    if y &&& 1 = 0 then mt.getD 396 0 ^^^ (y >>> 1)
    else mt.getD 396 0 ^^^ (y >>> 1) ^^^ TWIST_COEFF
  mt.set 623 v

/-- The full table regeneration ("twist") of `mt_rand`. -/
def mtTwist (mt : List ℕ) : List ℕ :=
  twistLast ((List.range 623).foldl twistMain mt)

/-- Modelled from the spec: one twist step as the claim words it, with
wrapped indices `(i+1) mod 624` and `(i+397) mod 624` uniformly for every
`i`, the extra xor applied when `y` is odd. -/
def twistSpecStep (mt : List ℕ) (i : ℕ) : List ℕ :=
  let y := (mt.getD i 0 &&& LOWER_MASK) ||| (mt.getD ((i + 1) % 624) 0 &&& UPPER_MASK)
  let v := mt.getD ((i + 397) % 624) 0 ^^^ (y >>> 1) ^^^
    (if y % 2 = 1 then TWIST_COEFF else 0)
  mt.set i v

/-- Modelled from the spec: the whole twist, regenerating all 624 words
in index order. -/
def mtTwistSpec (mt : List ℕ) : List ℕ :=
  (List.range 624).foldl twistSpecStep mt

/-- The tempering transform of `mt_rand`:
`y ^= y>>11; y ^= (y<<7) & 0x9D2C5680; y ^= (y<<15) & 0xEFC60000; y ^= y>>18`.
Left shifts on `u32` truncate, hence the `% U32`. -/
def temper (y0 : ℕ) : ℕ :=
  let y1 := y0 ^^^ (y0 >>> 11)
  let y2 := y1 ^^^ (((y1 <<< 7) % U32) &&& 0x9D2C5680)
  let y3 := y2 ^^^ (((y2 <<< 15) % U32) &&& 0xEFC60000)
  y3 ^^^ (y3 >>> 18)

/-- State of `MersenneTwister`: the 624-word table and the cursor. -/
structure MTState where
  mt : List ℕ
  cur : ℕ

/-- `MersenneTwister::new`: seeded table, cursor at 624. -/
def mtNew (seed : ℕ) : MTState :=
  ⟨mtInit seed, 624⟩

/-- `MersenneTwister::mt_rand` = `MersenneTwister::get_int`: twist when the
cursor has reached 624, then temper the current word and advance. -/
def mtRand (s : MTState) : ℕ × MTState :=
  let s' := if s.cur = 624 then MTState.mk (mtTwist s.mt) 0 else s
  (temper (s'.mt.getD s'.cur 0), ⟨s'.mt, s'.cur + 1⟩)

/-- Modelled from the spec: `get_int` as the claim describes it, using the
uniform twist `mtTwistSpec`; compared with `mtRand` below. -/
def mtRandSpec (s : MTState) : ℕ × MTState :=
  let s' := if s.cur = 624 then MTState.mk (mtTwistSpec s.mt) 0 else s
  (temper (s'.mt.getD s'.cur 0), ⟨s'.mt, s'.cur + 1⟩)

/-- The Mersenne Twister state reached from `new seed` by `n` calls of
`get_int`. -/
def mtReach (seed : ℕ) : ℕ → MTState
  | 0 => mtNew seed
  | n + 1 => (mtRand (mtReach seed n)).2

/-! ### Complementary-Multiply-With-Carry (CMWC4096) -/

/-- One glibc-LCG step of the seeding loop:
`s = s.wrapping_mul(1_103_515_245).wrapping_add(12345)`. -/
def lcg (s : ℕ) : ℕ :=
  (s * 1103515245 + 12345) % U32

/-- The seeding fill loop: `n` LCG steps, each stored; also returns the
final LCG state (the source threads `s` through the loop). -/
def cmwcFill : ℕ → ℕ → List ℕ × ℕ
  | 0, s => ([], s)
  | n + 1, s =>
    let s' := lcg s
    let p := cmwcFill n s'
    (s' :: p.1, p.2)

/-- `n`-fold iteration of the LCG step. -/
def lcgIter : ℕ → ℕ → ℕ
  | 0, s => s
  | n + 1, s => lcgIter n (lcg s)

/-- State of `ComplementaryMultiplyWithCarry`: the 4096-word table `q`,
the carry `c` and the cursor `cur`. -/
structure CMWCState where
  q : List ℕ
  c : ℕ
  cur : ℕ

/-- `ComplementaryMultiplyWithCarry::new`: 4096 LCG values into the table,
one more LCG step reduced mod `809_430_660` for the carry, cursor 0.
The `u32` seed parameter is embedded as `seed % 2^32`. -/
def cmwcNew (seed : ℕ) : CMWCState :=
  let p := cmwcFill 4096 (seed % U32)
  ⟨p.1, lcg p.2 % 809430660, 0⟩

/-- `ComplementaryMultiplyWithCarry::get_number`.  `t` is exact because the
`u64` expression `18782 * q[cur] + c` never exceeds `2^64`; `t >> 32` as
`u32` is exact for the same reason; the remaining `u32` operations wrap,
hence the `% U32`.  The final `0xFFFF_FFFE - x` is `u32` subtraction,
embedded as two's-complement `(a + 2^32 - x) % 2^32` (valid since
`x < 2^32`). -/
def getNumber (st : CMWCState) : ℕ × CMWCState :=
  let cur := (st.cur + 1) &&& 4095
  let t := 18782 * st.q.getD cur 0 + st.c
  let c1 := t >>> 32
  let x0 := (t + c1) % U32
  let x1 := if x0 < c1 then (x0 + 1) % U32 else x0
  let c2 := if x0 < c1 then (c1 + 1) % U32 else c1
  let x2 := if (x1 + 1) % U32 = 0 then 0 else x1
  let c3 := if (x1 + 1) % U32 = 0 then (c2 + 1) % U32 else c2
  let v := (4294967294 + U32 - x2 % U32) % U32
  (v, ⟨st.q.set cur v, c3, cur⟩)

/-- Modelled from the spec: `get_number` exactly as claim C4 words it —
cursor mod 4096, `c` the high 32 bits of `t`, `x` the low 32 bits of
`t + c`, the two carry corrections with plain (non-wrapping) increments in
order, and a plain subtraction `0xFFFFFFFE - x` stored and returned. -/
def getNumberSpec (st : CMWCState) : ℕ × CMWCState :=
  let cur := (st.cur + 1) % 4096
  let t := 18782 * st.q.getD cur 0 + st.c
  let c1 := t / 4294967296
  let x0 := (t + c1) % U32
  let x1 := if x0 < c1 then x0 + 1 else x0
  let c2 := if x0 < c1 then c1 + 1 else c1
  let x2 := if x1 = 4294967295 then 0 else x1
  let c3 := if x1 = 4294967295 then c2 + 1 else c2
  let v := 4294967294 - x2
  (v, ⟨st.q.set cur v, c3, cur⟩)

/-- The CMWC state reached from `new seed` by `n` calls of `get_int`. -/
def cmwcReach (seed : ℕ) : ℕ → CMWCState
  | 0 => cmwcNew seed
  | n + 1 => (getNumber (cmwcReach seed n)).2

/-- The state invariant of the CMWC generator: carry below Marsaglia's
bound, cursor in range, full-length table of `u32` values. -/
def CMWCInv (st : CMWCState) : Prop :=
  st.c < 809430660 ∧ st.cur < 4096 ∧ st.q.length = 4096 ∧ ∀ v ∈ st.q, v < U32

/-! ### Intermediate values of `get_number`

Accessors naming the successive `let`s of `getNumber`, used to state the
overflow-freedom claim; `getNumber_eq` below ties them to the function. -/

/-- The cursor selected by a `get_number` call. -/
def gnCur (st : CMWCState) : ℕ := (st.cur + 1) &&& 4095

/-- The 64-bit product-plus-carry `t`. -/
def gnT (st : CMWCState) : ℕ := 18782 * st.q.getD (gnCur st) 0 + st.c

/-- The new carry before corrections: high 32 bits of `t`. -/
def gnC1 (st : CMWCState) : ℕ := gnT st >>> 32

/-- `x` before corrections: low 32 bits of `t + c`. -/
def gnX0 (st : CMWCState) : ℕ := (gnT st + gnC1 st) % U32

/-- `x` after the first correction branch. -/
def gnX1 (st : CMWCState) : ℕ :=
  if gnX0 st < gnC1 st then (gnX0 st + 1) % U32 else gnX0 st

/-- carry after the first correction branch. -/
def gnC2 (st : CMWCState) : ℕ :=
  if gnX0 st < gnC1 st then (gnC1 st + 1) % U32 else gnC1 st

/-- `x` after the second correction branch. -/
def gnX2 (st : CMWCState) : ℕ :=
  if (gnX1 st + 1) % U32 = 0 then 0 else gnX1 st

/-- carry after the second correction branch. -/
def gnC3 (st : CMWCState) : ℕ :=
  if (gnX1 st + 1) % U32 = 0 then (gnC2 st + 1) % U32 else gnC2 st

/-- The stored and returned value `0xFFFF_FFFE - x` (`u32` subtraction). -/
def gnV (st : CMWCState) : ℕ := (4294967294 + U32 - gnX2 st % U32) % U32

/-! ### The bit extractor and the Allen-Downey float/double sampler

The Rust sampler is generic over `impl Algorithm`; the embedding is
parameterized by a step function `g : σ → ℕ × σ` standing for `get_int`
(`mtRand` and `getNumber` both have this shape). -/

/-- State of `Bits`: the borrowed generator, the bit buffer, and the count
of unconsumed bits. -/
structure BitsState (σ : Type) where
  st : σ
  bits : ℕ
  bitsLeft : ℕ

/-- `Bits::new`. -/
def bitsNew {σ : Type} (s : σ) : BitsState σ :=
  ⟨s, 0, 0⟩

/-- `Bits::get_bit`: refill 32 bits from the generator when exhausted, then
hand out the least significant buffered bit. -/
def getBit {σ : Type} (g : σ → ℕ × σ) (b : BitsState σ) : ℕ × BitsState σ :=
  let b' := if b.bitsLeft = 0 then BitsState.mk (g b.st).2 (g b.st).1 32 else b
  (b'.bits &&& 1, ⟨b'.st, b'.bits >>> 1, b'.bitsLeft - 1⟩)

/-- The exponent loop `while exp > low_exp { if bits.get_bit() != 0 break;
exp -= 1 }`, entered with `exp = high_exp - 1`; returns the final exponent
and the bit state. -/
def expLoop {σ : Type} (g : σ → ℕ × σ) : ℕ → BitsState σ → ℕ × BitsState σ
  | 0, b => (0, b)
  | e + 1, b =>
    let r := getBit g b
    if r.1 ≠ 0 then (e + 1, r.2) else expLoop g e r.2

/-- Precise-mode `get_float`, returning the assembled exponent and mantissa
fields (the bit pattern is `(exp <<< 23) ||| mantissa`) and the final
generator state.  Note the mantissa word is drawn by `bits.algorithm.get_int()`
directly (the buffer is bypassed), and the boundary bit is drawn only when
the mantissa is zero (Rust `&&` short-circuits). -/
def getFloatBits {σ : Type} (g : σ → ℕ × σ) (s : σ) : (ℕ × ℕ) × σ :=
  let r := expLoop g 126 (bitsNew s)
  let w := g r.2.st
  let m := w.1 &&& 0x7FFFFF
  let b1 : BitsState σ := ⟨w.2, r.2.bits, r.2.bitsLeft⟩
  if m = 0 then
    let rb := getBit g b1
    if rb.1 ≠ 0 then ((r.1 + 1, m), rb.2.st) else ((r.1, m), rb.2.st)
  else ((r.1, m), b1.st)

/-- Precise-mode `get_double`: loop from `1023 - 1`, two mantissa words
(`high << 32 | low`, high drawn first) masked to 52 bits. -/
def getDoubleBits {σ : Type} (g : σ → ℕ × σ) (s : σ) : (ℕ × ℕ) × σ :=
  let r := expLoop g 1022 (bitsNew s)
  let whi := g r.2.st
  let wlo := g whi.2
  let m := ((whi.1 <<< 32) ||| wlo.1) &&& 0xFFFFFFFFFFFFF
  let b1 : BitsState σ := ⟨wlo.2, r.2.bits, r.2.bitsLeft⟩
  if m = 0 then
    let rb := getBit g b1
    if rb.1 ≠ 0 then ((r.1 + 1, m), rb.2.st) else ((r.1, m), rb.2.st)
  else ((r.1, m), b1.st)

/-! ### Exact values of the produced IEEE-754 bit patterns -/

def f32val (e m : ℕ) : ℚ :=
  if e = 0 then (m : ℚ) / 2 ^ 149 else ((2 ^ 23 + m : ℕ) : ℚ) * 2 ^ e / 2 ^ 150

def f64val (e m : ℕ) : ℚ :=
  if e = 0 then (m : ℚ) / 2 ^ 1074 else ((2 ^ 52 + m : ℕ) : ℚ) * 2 ^ e / 2 ^ 1075

/-! ### Compat mode rounding model

`get_float` is `get_int() as f32 * RAND_DIV` and `get_double` is
`f64::from(get_int()) * RAND_DIV_DOUBLE`, modelled exactly as rationals:
the one rounding step of each operation is made explicit. -/

/-- Fuel-bounded floor of the base-2 logarithm (fuel ≥ bit length). -/
def lg2 : ℕ → ℕ → ℕ
  | 0, _ => 0
  | fuel + 1, n => if n < 2 then 0 else lg2 fuel (n / 2) + 1

/-- Round `n` to a multiple of `2^e`, ties to the even multiple
(IEEE round-to-nearest-even at granularity `2^e`). -/
def roundNE (n e : ℕ) : ℕ :=
  let q := n / 2 ^ e
  let r := n % 2 ^ e
  let q' :=
    if 2 * r > 2 ^ e then q + 1
    else if 2 * r < 2 ^ e then q
    else if q % 2 = 0 then q else q + 1
  q' * 2 ^ e

/-- Exact integer value of `n as f32` for `n < 2^33`: round to nearest
24-bit significand, ties to even. -/
def f32ofU32 (n : ℕ) : ℕ :=
  if n < 2 ^ 24 then n else roundNE n (lg2 64 n - 23)

/-- Nearest-even integer rounding of the quotient `a / b`. -/
def rneDiv (a b : ℕ) : ℕ :=
  let q := a / b
  let r := a % b
  if 2 * r > b then q + 1 else if 2 * r < b then q else if q % 2 = 0 then q else q + 1

/-- Numerator over `2^84` of `RAND_DIV_DOUBLE = fl64(1 / (2^32 - 1))`:
the quotient lies in `[2^-32, 2^-31)`, so its 53-bit significand has
granularity `2^-84` and the correctly rounded result is the nearest-even
integer rounding of `2^84 / (2^32 - 1)`. -/
def RAND_DIV_DOUBLE_NUM : ℕ :=
  rneDiv (2 ^ 84) 4294967295

/-- 53-bit round-to-nearest-even of the dyadic rational `p / 2^84`
(`p < 2^128`), returned as a numerator over `2^84`: exact when `p < 2^53`,
otherwise rounded at granularity `2^(lg2 p - 52)`. -/
def f64mulSig (p : ℕ) : ℕ :=
  if p < 2 ^ 53 then p else roundNE p (lg2 128 p - 52)

/-- Compat-mode `get_float`, as an exact rational. -/
def getFloatCompat {σ : Type} (g : σ → ℕ × σ) (s : σ) : ℚ × σ :=
  let r := g s
  ((f32ofU32 r.1 : ℚ) / 2 ^ 32, r.2)

/-- Compat-mode `get_double`, as an exact rational: the product
`n * RAND_DIV_DOUBLE` has exact value `n * NUM / 2^84` and is rounded once
to 53 bits. -/
def getDoubleCompat {σ : Type} (g : σ → ℕ × σ) (s : σ) : ℚ × σ :=
  let r := g s
  ((f64mulSig (r.1 * RAND_DIV_DOUBLE_NUM) : ℚ) / 2 ^ 84, r.2)

/-! ### Instrumentation for termination and resource bounds (claim C7) -/

/-- Wrapper counting the `get_int` calls made through `g`. -/
def countStep {σ : Type} (g : σ → ℕ × σ) : σ × ℕ → ℕ × (σ × ℕ) :=
  fun p => ((g p.1).1, ((g p.1).2, p.2 + 1))

/-- `expLoop` instrumented with the number of bits drawn; its second
component is exactly `expLoop` (`expLoopD_proj`). -/
def expLoopD {σ : Type} (g : σ → ℕ × σ) : ℕ → BitsState σ → ℕ × (ℕ × BitsState σ)
  | 0, b => (0, (0, b))
  | e + 1, b =>
    let r := getBit g b
    if r.1 ≠ 0 then (1, (e + 1, r.2))
    else
      let d := expLoopD g e r.2
      (d.1 + 1, d.2)

/-- Bits drawn by precise `get_float`: the loop's draws plus the boundary
draw made exactly when the mantissa word masks to zero. -/
def getFloatDraws {σ : Type} (g : σ → ℕ × σ) (s : σ) : ℕ :=
  let d := expLoopD g 126 (bitsNew s)
  let w := g d.2.2.st
  d.1 + (if w.1 &&& 0x7FFFFF = 0 then 1 else 0)

/-- Bits drawn by precise `get_double`. -/
def getDoubleDraws {σ : Type} (g : σ → ℕ × σ) (s : σ) : ℕ :=
  let d := expLoopD g 1022 (bitsNew s)
  let whi := g d.2.2.st
  let wlo := g whi.2
  d.1 + (if ((whi.1 <<< 32) ||| wlo.1) &&& 0xFFFFFFFFFFFFF = 0 then 1 else 0)

/-! ### Operation sequences and instance independence (claim C8) -/

/-- The draw operations of the generation contract: `get_int`, and
`get_float` / `get_double` in each of the two modes. -/
inductive RngOp where
  | int : RngOp
  | floatCompat : RngOp
  | floatPrecise : RngOp
  | doubleCompat : RngOp
  | doublePrecise : RngOp

/-- One draw operation on a generator with step function `g`; the output
is the exact rational value produced (`get_int` outputs are cast). -/
def runOp {σ : Type} (g : σ → ℕ × σ) : RngOp → σ → ℚ × σ
  | .int, s => (((g s).1 : ℚ), (g s).2)
  | .floatCompat, s => getFloatCompat g s
  | .floatPrecise, s =>
    (f32val (getFloatBits g s).1.1 (getFloatBits g s).1.2, (getFloatBits g s).2)
  | .doubleCompat, s => getDoubleCompat g s
  | .doublePrecise, s =>
    (f64val (getDoubleBits g s).1.1 (getDoubleBits g s).1.2, (getDoubleBits g s).2)

/-- Run a sequence of operations, collecting the outputs. -/
def runOps {σ : Type} (g : σ → ℕ × σ) : List RngOp → σ → List ℚ × σ
  | [], s => ([], s)
  | op :: ops, s =>
    let r := runOp g op s
    let rest := runOps g ops r.2
    (r.1 :: rest.1, rest.2)

/-- Run an interleaved schedule against two independent instances; each
entry says which instance executes the operation.  Models two generators
living side by side in one program. -/
def runPair {σA σB : Type} (gA : σA → ℕ × σA) (gB : σB → ℕ × σB) :
    List (Bool × RngOp) → σA × σB → List (Bool × ℚ) × (σA × σB)
  | [], p => ([], p)
  | (side, op) :: ops, p =>
    if side then
      let r := runOp gA op p.1
      let rest := runPair gA gB ops (r.2, p.2)
      ((true, r.1) :: rest.1, rest.2)
    else
      let r := runOp gB op p.2
      let rest := runPair gA gB ops (p.1, r.2)
      ((false, r.1) :: rest.1, rest.2)

/-- The operations of one side of an interleaved schedule. -/
def sideOps (side : Bool) (ops : List (Bool × RngOp)) : List RngOp :=
  ops.filterMap fun p => if p.1 = side then some p.2 else none

/-- The outputs of one side of an interleaved trace. -/
def sideTrace (side : Bool) (tr : List (Bool × ℚ)) : List ℚ :=
  tr.filterMap fun p => if p.1 = side then some p.2 else none

/-- The schedule that drives two instances through the same operations,
instance A acting first at each step. -/
def dupOps : List RngOp → List (Bool × RngOp)
  | [] => []
  | op :: ops => (true, op) :: (false, op) :: dupOps ops

/-! ### CMWC bounds and invariants -/

theorem getNumber_eq (st : CMWCState) :
    getNumber st = (gnV st, ⟨st.q.set (gnCur st) (gnV st), gnC3 st, gnCur st⟩) :=
  rfl

theorem lcg_lt (s : ℕ) : lcg s < U32 :=
  Nat.mod_lt _ (by norm_num [U32])

theorem cmwcFill_length (n s : ℕ) : (cmwcFill n s).1.length = n := by
  induction n generalizing s with
  | zero => rfl
  | succ n ih => simp [cmwcFill, ih]

theorem cmwcFill_mem {n s v : ℕ} (h : v ∈ (cmwcFill n s).1) : v < U32 := by
  induction n generalizing s with
  | zero => simp [cmwcFill] at h
  | succ n ih =>
    simp only [cmwcFill, List.mem_cons] at h
    rcases h with h | h
    · exact h ▸ lcg_lt _
    · exact ih h

/-- In-bounds `getD` yields a member of the list. -/
theorem getD_mem {l : List ℕ} {i : ℕ} (h : i < l.length) : l.getD i 0 ∈ l := by
  rw [List.getD_eq_getElem?_getD, List.getElem?_eq_getElem h]
  exact List.getElem_mem h

theorem cmwcNew_inv (seed : ℕ) : CMWCInv (cmwcNew seed) := by
  refine ⟨Nat.mod_lt _ (by norm_num), by norm_num [cmwcNew], ?_, ?_⟩
  · show (cmwcFill 4096 (seed % U32)).1.length = 4096
    exact cmwcFill_length _ _
  · intro v hv
    exact cmwcFill_mem hv

theorem gnCur_lt (st : CMWCState) : gnCur st < 4096 :=
  lt_of_le_of_lt Nat.and_le_right (by norm_num)

/-- Under the invariant, `t < 18783 * 2^32`. -/
theorem gnT_lt {st : CMWCState} (hlen : st.q.length = 4096)
    (hq : ∀ v ∈ st.q, v < U32) (hc : st.c < U32) : gnT st < 18783 * U32 := by
  have hm : st.q.getD (gnCur st) 0 < U32 :=
    hq _ (getD_mem (by rw [hlen]; exact gnCur_lt st))
  have e : U32 = 4294967296 := rfl
  unfold gnT
  rw [e] at hm hc ⊢
  omega

/-- Under the invariant, the uncorrected new carry is at most 18782. -/
theorem gnC1_le {st : CMWCState} (hlen : st.q.length = 4096)
    (hq : ∀ v ∈ st.q, v < U32) (hc : st.c < U32) : gnC1 st ≤ 18782 := by
  have ht := gnT_lt hlen hq hc
  unfold gnC1
  rw [Nat.shiftRight_eq_div_pow]
  have h32 : (2 : ℕ) ^ 32 = U32 := by norm_num [U32]
  rw [h32]
  have : gnT st / U32 < 18783 :=
    Nat.div_lt_of_lt_mul (by rw [Nat.mul_comm]; exact ht)
  omega

theorem gnC2_le {st : CMWCState} (hlen : st.q.length = 4096)
    (hq : ∀ v ∈ st.q, v < U32) (hc : st.c < U32) : gnC2 st ≤ 18783 := by
  have h1 := gnC1_le hlen hq hc
  unfold gnC2
  split
  · rw [Nat.mod_eq_of_lt (by norm_num [U32] at h1 ⊢; omega)]; omega
  · omega

theorem gnC3_le {st : CMWCState} (hlen : st.q.length = 4096)
    (hq : ∀ v ∈ st.q, v < U32) (hc : st.c < U32) : gnC3 st ≤ 18784 := by
  have h2 := gnC2_le hlen hq hc
  unfold gnC3
  split
  · rw [Nat.mod_eq_of_lt (by norm_num [U32] at h2 ⊢; omega)]; omega
  · omega

theorem gnV_lt (st : CMWCState) : gnV st < U32 :=
  Nat.mod_lt _ (by norm_num [U32])

theorem getNumber_inv {st : CMWCState} (h : CMWCInv st) : CMWCInv (getNumber st).2 := by
  obtain ⟨hc, hcur, hlen, hq⟩ := h
  have hcU : st.c < U32 := lt_trans hc (by norm_num [U32])
  have h3 := gnC3_le hlen hq hcU
  refine ⟨?_, ?_, ?_, ?_⟩
  · show (getNumber st).2.c < 809430660
    rw [getNumber_eq]
    show gnC3 st < 809430660
    omega
  · show (getNumber st).2.cur < 4096
    rw [getNumber_eq]
    exact gnCur_lt st
  · show (getNumber st).2.q.length = 4096
    rw [getNumber_eq]
    show (st.q.set (gnCur st) (gnV st)).length = 4096
    simpa using hlen
  · intro v hv
    rw [getNumber_eq] at hv
    replace hv : v ∈ st.q.set (gnCur st) (gnV st) := hv
    rcases List.mem_or_eq_of_mem_set hv with hv | hv
    · exact hq _ hv
    · exact hv ▸ gnV_lt st

theorem cmwcReach_inv (seed n : ℕ) : CMWCInv (cmwcReach seed n) := by
  induction n with
  | zero => exact cmwcNew_inv seed
  | succ n ih => exact getNumber_inv ih

/-- `x &&& 4095` is `x mod 4096`. -/
theorem and4095 (x : ℕ) : x &&& 4095 = x % 4096 := by
  have h := Nat.and_pow_two_sub_one_eq_mod x 12
  norm_num at h
  exact h

theorem succ_mod_U32_eq_zero_iff {x : ℕ} (hx : x < U32) :
    (x + 1) % U32 = 0 ↔ x = 4294967295 := by
  have e : U32 = 4294967296 := rfl
  rw [e] at hx ⊢
  omega

theorem gnX0_lt (st : CMWCState) : gnX0 st < U32 :=
  Nat.mod_lt _ (by norm_num [U32])

theorem mod_U32_eq_self {x : ℕ} (h : x < 4294967296) : x % U32 = x :=
  Nat.mod_eq_of_lt h

theorem gnX1_plain {st : CMWCState} (hlen : st.q.length = 4096)
    (hq : ∀ v ∈ st.q, v < U32) (hc : st.c < U32) :
    gnX1 st = if gnX0 st < gnC1 st then gnX0 st + 1 else gnX0 st := by
  have hc1 := gnC1_le hlen hq hc
  unfold gnX1
  split
  · next h => exact mod_U32_eq_self (by omega)
  · rfl

theorem gnC2_plain {st : CMWCState} (hlen : st.q.length = 4096)
    (hq : ∀ v ∈ st.q, v < U32) (hc : st.c < U32) :
    gnC2 st = if gnX0 st < gnC1 st then gnC1 st + 1 else gnC1 st := by
  have hc1 := gnC1_le hlen hq hc
  unfold gnC2
  split
  · exact mod_U32_eq_self (by omega)
  · rfl

theorem gnX1_lt {st : CMWCState} (hlen : st.q.length = 4096)
    (hq : ∀ v ∈ st.q, v < U32) (hc : st.c < U32) : gnX1 st < U32 := by
  have hc1 := gnC1_le hlen hq hc
  have hx0 : gnX0 st < 4294967296 := gnX0_lt st
  unfold gnX1
  split
  · next h => exact Nat.mod_lt _ (by norm_num [U32])
  · exact hx0

theorem gnCond_iff {st : CMWCState} (hlen : st.q.length = 4096)
    (hq : ∀ v ∈ st.q, v < U32) (hc : st.c < U32) :
    ((gnX1 st + 1) % U32 = 0) = (gnX1 st = 4294967295) :=
  propext (succ_mod_U32_eq_zero_iff (gnX1_lt hlen hq hc))

theorem gnX2_plain {st : CMWCState} (hlen : st.q.length = 4096)
    (hq : ∀ v ∈ st.q, v < U32) (hc : st.c < U32) :
    gnX2 st = if gnX1 st = 4294967295 then 0 else gnX1 st := by
  unfold gnX2
  simp only [gnCond_iff hlen hq hc]

theorem gnC3_plain {st : CMWCState} (hlen : st.q.length = 4096)
    (hq : ∀ v ∈ st.q, v < U32) (hc : st.c < U32) :
    gnC3 st = if gnX1 st = 4294967295 then gnC2 st + 1 else gnC2 st := by
  have hc2 := gnC2_le hlen hq hc
  unfold gnC3
  simp only [gnCond_iff hlen hq hc]
  split
  · exact mod_U32_eq_self (by omega)
  · rfl

theorem gnX2_le {st : CMWCState} (hlen : st.q.length = 4096)
    (hq : ∀ v ∈ st.q, v < U32) (hc : st.c < U32) : gnX2 st ≤ 4294967294 := by
  have hx1 : gnX1 st < 4294967296 := gnX1_lt hlen hq hc
  rw [gnX2_plain hlen hq hc]
  split
  · omega
  · next h => omega

theorem gnV_plain {st : CMWCState} (hlen : st.q.length = 4096)
    (hq : ∀ v ∈ st.q, v < U32) (hc : st.c < U32) :
    gnV st = 4294967294 - gnX2 st := by
  have hx2 := gnX2_le hlen hq hc
  unfold gnV
  rw [mod_U32_eq_self (show gnX2 st < 4294967296 by omega)]
  show (4294967294 + 4294967296 - gnX2 st) % 4294967296 = 4294967294 - gnX2 st
  omega

/-- Under the invariant, the wrapping `get_number` agrees with the claim's
plain-arithmetic description step by step. -/
theorem getNumber_eq_spec {st : CMWCState} (hlen : st.q.length = 4096)
    (hq : ∀ v ∈ st.q, v < U32) (hc : st.c < U32) :
    getNumber st = getNumberSpec st := by
  rw [getNumber_eq, gnV_plain hlen hq hc, gnC3_plain hlen hq hc,
    gnX2_plain hlen hq hc, gnC2_plain hlen hq hc, gnX1_plain hlen hq hc]
  unfold getNumberSpec gnX0 gnC1 gnT gnCur
  simp only [Nat.shiftRight_eq_div_pow, and4095]

/-! ### Cursor cycling and table mutation order (claim C6) -/

theorem getD_set_ne {l : List ℕ} {i j v : ℕ} (h : i ≠ j) :
    (l.set i v).getD j 0 = l.getD j 0 := by
  simp [List.getD_eq_getElem?_getD, List.getElem?_set_ne h]

theorem getD_set_self {l : List ℕ} {j v : ℕ} (h : j < l.length) :
    (l.set j v).getD j 0 = v := by
  simp [List.getD_eq_getElem?_getD, List.getElem?_set_self h]

/-- The cursor after `n` draws is `n mod 4096`: the `k`-th call uses table
index `k mod 4096`. -/
theorem cmwcReach_cur (seed n : ℕ) : (cmwcReach seed n).cur = n % 4096 := by
  induction n with
  | zero => rfl
  | succ n ih =>
    show (getNumber (cmwcReach seed n)).2.cur = (n + 1) % 4096
    rw [getNumber_eq]
    show gnCur (cmwcReach seed n) = (n + 1) % 4096
    unfold gnCur
    rw [and4095, ih]
    omega

/-- Entry 0 of the table is never written during the first 4095 draws. -/
theorem cmwcReach_q0 (seed : ℕ) {k : ℕ} (hk : k ≤ 4095) :
    (cmwcReach seed k).q.getD 0 0 = (cmwcNew seed).q.getD 0 0 := by
  induction k with
  | zero => rfl
  | succ k ih =>
    have hcur := cmwcReach_cur seed k
    show (getNumber (cmwcReach seed k)).2.q.getD 0 0 = _
    rw [getNumber_eq]
    show ((cmwcReach seed k).q.set (gnCur (cmwcReach seed k)) _).getD 0 0 = _
    have hne : gnCur (cmwcReach seed k) ≠ 0 := by
      unfold gnCur
      rw [and4095, hcur]
      omega
    rw [getD_set_ne hne]
    exact ih (by omega)

/-- Entry 1 holds the value stored by the very first draw, throughout
draws 1..4096: the revisit at draw 4097 reads that stored value. -/
theorem cmwcReach_q1 (seed : ℕ) {n : ℕ} (h1 : 1 ≤ n) (h2 : n ≤ 4096) :
    (cmwcReach seed n).q.getD 1 0 = (getNumber (cmwcNew seed)).1 := by
  induction n with
  | zero => omega
  | succ n ih =>
    rcases Nat.eq_or_lt_of_le h1 with h | h
    · -- n + 1 = 1: the first draw writes index 1
      have hn : n = 0 := by omega
      subst hn
      show (getNumber (cmwcNew seed)).2.q.getD 1 0 = (getNumber (cmwcNew seed)).1
      rw [getNumber_eq]
      have hlen : (cmwcNew seed).q.length = 4096 := (cmwcNew_inv seed).2.2.1
      have hcur1 : gnCur (cmwcNew seed) = 1 := by
        unfold gnCur
        show (0 + 1) &&& 4095 = 1
        decide
      rw [hcur1]
      exact getD_set_self (by omega)
    · -- n ≥ 1: draw n+1 writes index (n+1) % 4096 ≠ 1
      have hcur := cmwcReach_cur seed n
      show (getNumber (cmwcReach seed n)).2.q.getD 1 0 = _
      rw [getNumber_eq]
      have hne : gnCur (cmwcReach seed n) ≠ 1 := by
        unfold gnCur
        rw [and4095, hcur]
        omega
      rw [getD_set_ne hne]
      exact ih (by omega) (by omega)

/-! ### MT19937 twist equivalence and cursor invariant (claim C5) -/

theorem twistMain_eq_spec (mt : List ℕ) {i : ℕ} (h : i < 623) :
    twistMain mt i = twistSpecStep mt i := by
  simp only [twistMain, twistSpecStep]
  rw [Nat.mod_eq_of_lt (show i + 1 < 624 by omega)]
  congr 1
  rw [Nat.and_one_is_mod]
  rcases Nat.mod_two_eq_zero_or_one
    ((mt.getD i 0 &&& LOWER_MASK) ||| (mt.getD (i + 1) 0 &&& UPPER_MASK)) with hy | hy
  · rw [if_pos hy, if_neg (by omega), Nat.xor_zero]
  · rw [if_neg (by omega), if_pos hy]

theorem twistLast_eq_spec (mt : List ℕ) : twistLast mt = twistSpecStep mt 623 := by
  simp only [twistLast, twistSpecStep]
  rw [show (623 + 1) % 624 = 0 from by norm_num,
    show (623 + 397) % 624 = 396 from by norm_num]
  congr 1
  rw [Nat.and_one_is_mod]
  rcases Nat.mod_two_eq_zero_or_one
    ((mt.getD 623 0 &&& LOWER_MASK) ||| (mt.getD 0 0 &&& UPPER_MASK)) with hy | hy
  · rw [if_pos hy, if_neg (by omega), Nat.xor_zero]
  · rw [if_neg (by omega), if_pos hy]

/-- The source's twist (main loop plus explicit last step) is exactly the
claim's uniform in-place regeneration of all 624 words. -/
theorem mtTwist_eq_spec (mt : List ℕ) : mtTwist mt = mtTwistSpec mt := by
  unfold mtTwist mtTwistSpec
  conv_rhs => rw [show (624 : ℕ) = 623 + 1 from rfl, List.range_succ, List.foldl_append]
  simp only [List.foldl_cons, List.foldl_nil]
  rw [List.foldl_ext twistMain twistSpecStep mt
    (fun a b hb => twistMain_eq_spec a (List.mem_range.mp hb))]
  exact twistLast_eq_spec _

/-- `get_int` agrees everywhere with the claim's description of the draw. -/
theorem mtRand_eq_spec (s : MTState) : mtRand s = mtRandSpec s := by
  unfold mtRand mtRandSpec
  by_cases h : s.cur = 624
  · rw [if_pos h, if_pos h, mtTwist_eq_spec]
  · rw [if_neg h, if_neg h]

/-- The cursor of a reachable MT state never exceeds 624. -/
theorem mtReach_cur_le (seed n : ℕ) : (mtReach seed n).cur ≤ 624 := by
  induction n with
  | zero => exact le_refl 624
  | succ n ih =>
    show (mtRand (mtReach seed n)).2.cur ≤ 624
    unfold mtRand
    by_cases h : (mtReach seed n).cur = 624
    · rw [if_pos h]
      norm_num
    · rw [if_neg h]
      show (mtReach seed n).cur + 1 ≤ 624
      omega

/-! ### Bounds for the sampler values (claim C2) -/

theorem lg2_le {m : ℕ} : ∀ {fuel n : ℕ}, n < 2 ^ (m + 1) → lg2 fuel n ≤ m := by
  induction m using Nat.strong_induction_on with
  | _ m ih =>
    intro fuel n h
    match fuel with
    | 0 => exact Nat.zero_le m
    | fuel + 1 =>
      unfold lg2
      split
      · exact Nat.zero_le m
      · next hn =>
        have hm : 1 ≤ m := by
          by_contra hm
          have : m = 0 := by omega
          subst this
          norm_num at h
          omega
        have hdiv : n / 2 < 2 ^ (m - 1 + 1) := by
          have : n < 2 ^ (m - 1 + 1) * 2 := by
            have e : m - 1 + 1 + 1 = m + 1 := by omega
            calc n < 2 ^ (m + 1) := h
              _ = 2 ^ (m - 1 + 1) * 2 := by rw [← pow_succ, e]
          omega
        have := @ih (m - 1) (by omega) fuel (n / 2) hdiv
        omega

theorem roundNE_le_pow {n e B : ℕ} (hn : n < 2 ^ B) (he : e ≤ B) :
    roundNE n e ≤ 2 ^ B := by
  simp only [roundNE]
  have hq : n / 2 ^ e < 2 ^ (B - e) := by
    apply Nat.div_lt_of_lt_mul
    calc n < 2 ^ B := hn
      _ = 2 ^ e * 2 ^ (B - e) := by rw [← pow_add]; congr 1; omega
  have hstep : ∀ q', q' ≤ n / 2 ^ e + 1 → q' * 2 ^ e ≤ 2 ^ B := by
    intro q' hq'
    calc q' * 2 ^ e ≤ 2 ^ (B - e) * 2 ^ e := Nat.mul_le_mul_right _ (by omega)
      _ = 2 ^ B := by rw [← pow_add]; congr 1; omega
  split
  · exact hstep _ (le_refl _)
  · split
    · exact hstep _ (by omega)
    · split
      · exact hstep _ (by omega)
      · exact hstep _ (le_refl _)

theorem f32ofU32_le {n : ℕ} (h : n < 4294967296) : f32ofU32 n ≤ 2 ^ 32 := by
  unfold f32ofU32
  split
  · have : (2 : ℕ) ^ 24 ≤ 2 ^ 32 := by norm_num
    omega
  · apply roundNE_le_pow
    · exact_mod_cast h
    · have : lg2 64 n ≤ 31 := lg2_le (by norm_num; omega)
      omega

theorem f64mulSig_le {p : ℕ} (h : p < 2 ^ 84) : f64mulSig p ≤ 2 ^ 84 := by
  unfold f64mulSig
  split
  · have : (2 : ℕ) ^ 53 ≤ 2 ^ 84 := by norm_num
    omega
  · apply roundNE_le_pow h
    have : lg2 128 p ≤ 83 := lg2_le (by norm_num at h ⊢; omega)
    omega

theorem doubleProd_lt {n : ℕ} (h : n < 4294967296) :
    n * RAND_DIV_DOUBLE_NUM < 2 ^ 84 := by
  have e : RAND_DIV_DOUBLE_NUM = 2 ^ 52 + 2 ^ 20 := by decide
  rw [e]
  calc n * (2 ^ 52 + 2 ^ 20) ≤ 4294967295 * (2 ^ 52 + 2 ^ 20) :=
        Nat.mul_le_mul_right _ (by omega)
    _ < 2 ^ 84 := by norm_num

theorem getFloatCompat_mem {σ : Type} (g : σ → ℕ × σ) (hg : ∀ s, (g s).1 < U32)
    (s : σ) : 0 ≤ (getFloatCompat g s).1 ∧ (getFloatCompat g s).1 ≤ 1 := by
  constructor
  · unfold getFloatCompat
    positivity
  · unfold getFloatCompat
    rw [div_le_one (by positivity)]
    have h := f32ofU32_le (show (g s).1 < 4294967296 from hg s)
    calc ((f32ofU32 (g s).1 : ℕ) : ℚ) ≤ ((2 ^ 32 : ℕ) : ℚ) := by exact_mod_cast h
      _ = 2 ^ 32 := by push_cast; ring

theorem getDoubleCompat_mem {σ : Type} (g : σ → ℕ × σ) (hg : ∀ s, (g s).1 < U32)
    (s : σ) : 0 ≤ (getDoubleCompat g s).1 ∧ (getDoubleCompat g s).1 ≤ 1 := by
  constructor
  · unfold getDoubleCompat
    positivity
  · unfold getDoubleCompat
    rw [div_le_one (by positivity)]
    have h := f64mulSig_le (doubleProd_lt (show (g s).1 < 4294967296 from hg s))
    calc ((f64mulSig ((g s).1 * RAND_DIV_DOUBLE_NUM) : ℕ) : ℚ)
        ≤ ((2 ^ 84 : ℕ) : ℚ) := by exact_mod_cast h
      _ = 2 ^ 84 := by push_cast; ring

theorem expLoop_le {σ : Type} (g : σ → ℕ × σ) :
    ∀ (e : ℕ) (b : BitsState σ), (expLoop g e b).1 ≤ e := by
  intro e
  induction e with
  | zero => intro b; exact le_refl 0
  | succ e ih =>
    intro b
    simp only [expLoop]
    split
    · exact le_refl _
    · exact le_trans (ih _) (by omega)

/-- The fields produced by precise `get_float`: either a plain result with
exponent at most 126, or the boundary case with zero mantissa and exponent
at most 127. -/
theorem getFloatBits_char {σ : Type} (g : σ → ℕ × σ) (s : σ) :
    ((getFloatBits g s).1.1 ≤ 126 ∧ (getFloatBits g s).1.2 < 2 ^ 23) ∨
      ((getFloatBits g s).1.1 ≤ 127 ∧ (getFloatBits g s).1.2 = 0) := by
  have hexp := expLoop_le g 126 (bitsNew s)
  simp only [getFloatBits]
  split
  · next hm =>
    split
    · right
      refine ⟨?_, hm⟩
      show (expLoop g 126 (bitsNew s)).1 + 1 ≤ 127
      omega
    · right
      refine ⟨?_, hm⟩
      show (expLoop g 126 (bitsNew s)).1 ≤ 127
      omega
  · next hm =>
    left
    refine ⟨hexp, ?_⟩
    exact Nat.and_lt_two_pow _ (by norm_num)

/-- The fields produced by precise `get_double`. -/
theorem getDoubleBits_char {σ : Type} (g : σ → ℕ × σ) (s : σ) :
    ((getDoubleBits g s).1.1 ≤ 1022 ∧ (getDoubleBits g s).1.2 < 2 ^ 52) ∨
      ((getDoubleBits g s).1.1 ≤ 1023 ∧ (getDoubleBits g s).1.2 = 0) := by
  have hexp := expLoop_le g 1022 (bitsNew s)
  simp only [getDoubleBits]
  split
  · next hm =>
    split
    · right
      refine ⟨?_, hm⟩
      show (expLoop g 1022 (bitsNew s)).1 + 1 ≤ 1023
      omega
    · right
      refine ⟨?_, hm⟩
      show (expLoop g 1022 (bitsNew s)).1 ≤ 1023
      omega
  · next hm =>
    left
    refine ⟨hexp, ?_⟩
    exact Nat.and_lt_two_pow _ (by norm_num)

theorem f32val_nonneg (e m : ℕ) : 0 ≤ f32val e m := by
  unfold f32val
  split
  · positivity
  · positivity

theorem f64val_nonneg (e m : ℕ) : 0 ≤ f64val e m := by
  unfold f64val
  split
  · positivity
  · positivity

theorem f32val_le_one {e m : ℕ}
    (h : (e ≤ 126 ∧ m < 2 ^ 23) ∨ (e ≤ 127 ∧ m = 0)) : f32val e m ≤ 1 := by
  unfold f32val
  split
  · rw [div_le_one (by positivity)]
    have hm : m ≤ 2 ^ 149 := by
      rcases h with ⟨_, hm⟩ | ⟨_, hm⟩
      · calc m ≤ 2 ^ 23 := le_of_lt hm
          _ ≤ 2 ^ 149 := by norm_num
      · simp [hm]
    calc (m : ℚ) ≤ ((2 ^ 149 : ℕ) : ℚ) := by exact_mod_cast hm
      _ = 2 ^ 149 := by push_cast; ring
  · rw [div_le_one (by positivity)]
    have key : (2 ^ 23 + m) * 2 ^ e ≤ 2 ^ 150 := by
      rcases h with ⟨he, hm⟩ | ⟨he, hm⟩
      · calc (2 ^ 23 + m) * 2 ^ e ≤ 2 ^ 24 * 2 ^ 126 :=
            Nat.mul_le_mul (by omega) (Nat.pow_le_pow_right (by norm_num) he)
          _ = 2 ^ 150 := by rw [← pow_add]
      · subst hm
        calc (2 ^ 23 + 0) * 2 ^ e ≤ 2 ^ 23 * 2 ^ 127 :=
            Nat.mul_le_mul (by omega) (Nat.pow_le_pow_right (by norm_num) he)
          _ = 2 ^ 150 := by rw [← pow_add]
    calc ((2 ^ 23 + m : ℕ) : ℚ) * 2 ^ e = (((2 ^ 23 + m) * 2 ^ e : ℕ) : ℚ) := by
          push_cast
          ring
      _ ≤ ((2 ^ 150 : ℕ) : ℚ) := by exact_mod_cast key
      _ = 2 ^ 150 := by push_cast; ring

theorem f64val_le_one {e m : ℕ}
    (h : (e ≤ 1022 ∧ m < 2 ^ 52) ∨ (e ≤ 1023 ∧ m = 0)) : f64val e m ≤ 1 := by
  unfold f64val
  split
  · rw [div_le_one (by positivity)]
    have hm : m ≤ 2 ^ 1074 := by
      rcases h with ⟨_, hm⟩ | ⟨_, hm⟩
      · calc m ≤ 2 ^ 52 := le_of_lt hm
          _ ≤ 2 ^ 1074 := Nat.pow_le_pow_right (by norm_num) (by norm_num)
      · simp [hm]
    calc (m : ℚ) ≤ ((2 ^ 1074 : ℕ) : ℚ) := by exact_mod_cast hm
      _ = 2 ^ 1074 := by push_cast; ring
  · rw [div_le_one (by positivity)]
    have key : (2 ^ 52 + m) * 2 ^ e ≤ 2 ^ 1075 := by
      rcases h with ⟨he, hm⟩ | ⟨he, hm⟩
      · calc (2 ^ 52 + m) * 2 ^ e ≤ 2 ^ 53 * 2 ^ 1022 :=
            Nat.mul_le_mul (by omega) (Nat.pow_le_pow_right (by norm_num) he)
          _ = 2 ^ 1075 := by rw [← pow_add]
      · subst hm
        calc (2 ^ 52 + 0) * 2 ^ e ≤ 2 ^ 52 * 2 ^ 1023 :=
            Nat.mul_le_mul (by omega) (Nat.pow_le_pow_right (by norm_num) he)
          _ = 2 ^ 1075 := by rw [← pow_add]
    calc ((2 ^ 52 + m : ℕ) : ℚ) * 2 ^ e = (((2 ^ 52 + m) * 2 ^ e : ℕ) : ℚ) := by
          push_cast
          ring
      _ ≤ ((2 ^ 1075 : ℕ) : ℚ) := by exact_mod_cast key
      _ = 2 ^ 1075 := by push_cast; ring

/-! ### Counting bit draws and generator calls (claim C7) -/

theorem expLoopD_proj {σ : Type} (g : σ → ℕ × σ) :
    ∀ (e : ℕ) (b : BitsState σ), (expLoopD g e b).2 = expLoop g e b := by
  intro e
  induction e with
  | zero => intro b; rfl
  | succ e ih =>
    intro b
    simp only [expLoopD, expLoop]
    split
    · rfl
    · exact ih _

theorem expLoopD_draws_le {σ : Type} (g : σ → ℕ × σ) :
    ∀ (e : ℕ) (b : BitsState σ), (expLoopD g e b).1 ≤ e := by
  intro e
  induction e with
  | zero => intro b; exact le_refl 0
  | succ e ih =>
    intro b
    simp only [expLoopD]
    split
    · omega
    · have := ih (getBit g b).2
      omega

theorem getFloatDraws_le {σ : Type} (g : σ → ℕ × σ) (s : σ) :
    getFloatDraws g s ≤ 127 := by
  have h := expLoopD_draws_le g 126 (bitsNew s)
  simp only [getFloatDraws]
  split
  · omega
  · omega

theorem getDoubleDraws_le {σ : Type} (g : σ → ℕ × σ) (s : σ) :
    getDoubleDraws g s ≤ 1023 := by
  have h := expLoopD_draws_le g 1022 (bitsNew s)
  simp only [getDoubleDraws]
  split
  · omega
  · omega

theorem getBit_count {σ : Type} (g : σ → ℕ × σ) (b : BitsState (σ × ℕ)) :
    (getBit (countStep g) b).2.st.2 = b.st.2 + (if b.bitsLeft = 0 then 1 else 0) ∧
    (getBit (countStep g) b).2.bitsLeft = if b.bitsLeft = 0 then 31 else b.bitsLeft - 1 := by
  unfold getBit countStep
  by_cases h : b.bitsLeft = 0
  · simp [h]
  · simp [h]

theorem getBit_count_le {σ : Type} (g : σ → ℕ × σ) (b : BitsState (σ × ℕ)) :
    (getBit (countStep g) b).2.st.2 ≤ b.st.2 + 1 := by
  rw [(getBit_count g b).1]
  split <;> omega

theorem getBit_count_ge {σ : Type} (g : σ → ℕ × σ) (b : BitsState (σ × ℕ)) :
    b.st.2 ≤ (getBit (countStep g) b).2.st.2 := by
  rw [(getBit_count g b).1]
  split <;> omega

/-- Refill accounting for the exponent loop over a counting generator:
`32 · calls` equals draws plus leftover bits, the call count grows, and the
leftover count stays at most 32. -/
theorem expLoopD_count {σ : Type} (g : σ → ℕ × σ) :
    ∀ (e : ℕ) (b : BitsState (σ × ℕ)), b.bitsLeft ≤ 32 →
      32 * (expLoopD (countStep g) e b).2.2.st.2 + b.bitsLeft
          = 32 * b.st.2 + (expLoopD (countStep g) e b).1
            + (expLoopD (countStep g) e b).2.2.bitsLeft ∧
        b.st.2 ≤ (expLoopD (countStep g) e b).2.2.st.2 ∧
        (expLoopD (countStep g) e b).2.2.bitsLeft ≤ 32 := by
  intro e
  induction e with
  | zero =>
    intro b hb
    refine ⟨?_, le_refl _, hb⟩
    show 32 * b.st.2 + b.bitsLeft = 32 * b.st.2 + 0 + b.bitsLeft
    omega
  | succ e ih =>
    intro b hb
    obtain ⟨hcount, hleft⟩ := getBit_count g b
    simp only [expLoopD]
    split
    · dsimp only
      rw [hcount, hleft]
      refine ⟨?_, by omega, ?_⟩
      · by_cases h : b.bitsLeft = 0 <;> simp only [h, if_true, if_false] <;> omega
      · by_cases h : b.bitsLeft = 0 <;> simp only [h, if_true, if_false] <;> omega
    · dsimp only
      have hb' : (getBit (countStep g) b).2.bitsLeft ≤ 32 := by
        rw [hleft]
        by_cases h : b.bitsLeft = 0 <;> simp only [h, if_true, if_false] <;> omega
      obtain ⟨ih1, ih2, ih3⟩ := ih (getBit (countStep g) b).2 hb'
      rw [hcount] at ih1 ih2
      rw [hleft] at ih1
      refine ⟨?_, ?_, ih3⟩
      · by_cases h : b.bitsLeft = 0
        · simp only [h, if_true, if_false] at ih1 ⊢
          omega
        · simp only [h, if_true, if_false] at ih1 ⊢
          omega
      · by_cases h : b.bitsLeft = 0 <;> simp only [h, if_true, if_false] at ih2 <;> omega

/-- Call-count bound for the exponent loop, via `expLoop` itself. -/
theorem expLoop_calls {σ : Type} (g : σ → ℕ × σ) (e : ℕ) (b : BitsState (σ × ℕ))
    (hb : b.bitsLeft ≤ 32) :
    32 * (expLoop (countStep g) e b).2.st.2 ≤ 32 * b.st.2 + e + 32 ∧
      b.st.2 ≤ (expLoop (countStep g) e b).2.st.2 := by
  obtain ⟨h1, h2, h3⟩ := expLoopD_count g e b hb
  have hd := expLoopD_draws_le (countStep g) e b
  rw [expLoopD_proj] at h1 h2 h3
  exact ⟨by omega, h2⟩

/-- Precise `get_float` makes at most 6 `get_int` calls. -/
theorem getFloatBits_calls {σ : Type} (g : σ → ℕ × σ) (s : σ) (k : ℕ) :
    (getFloatBits (countStep g) (s, k)).2.2 ≤ k + 6 := by
  obtain ⟨h1, h2⟩ := expLoop_calls g 126 (bitsNew (s, k)) (by norm_num [bitsNew])
  have hl0 : (bitsNew (s, k)).st.2 = k := rfl
  rw [hl0] at h1 h2
  have hloop : (expLoop (countStep g) 126 (bitsNew (s, k))).2.st.2 ≤ k + 4 := by omega
  have hmant : (countStep g (expLoop (countStep g) 126 (bitsNew (s, k))).2.st).2.2
      = (expLoop (countStep g) 126 (bitsNew (s, k))).2.st.2 + 1 := rfl
  simp only [getFloatBits]
  split
  · split
    · dsimp only
      refine le_trans (getBit_count_le g _) ?_
      show (countStep g (expLoop (countStep g) 126 (bitsNew (s, k))).2.st).2.2 + 1 ≤ k + 6
      rw [hmant]
      omega
    · dsimp only
      refine le_trans (getBit_count_le g _) ?_
      show (countStep g (expLoop (countStep g) 126 (bitsNew (s, k))).2.st).2.2 + 1 ≤ k + 6
      rw [hmant]
      omega
  · dsimp only
    show (countStep g (expLoop (countStep g) 126 (bitsNew (s, k))).2.st).2.2 ≤ k + 6
    rw [hmant]
    omega

/-- Precise `get_double` makes at most 35 `get_int` calls. -/
theorem getDoubleBits_calls {σ : Type} (g : σ → ℕ × σ) (s : σ) (k : ℕ) :
    (getDoubleBits (countStep g) (s, k)).2.2 ≤ k + 35 := by
  obtain ⟨h1, h2⟩ := expLoop_calls g 1022 (bitsNew (s, k)) (by norm_num [bitsNew])
  have hl0 : (bitsNew (s, k)).st.2 = k := rfl
  rw [hl0] at h1 h2
  have hloop : (expLoop (countStep g) 1022 (bitsNew (s, k))).2.st.2 ≤ k + 33 := by omega
  have hmant : (countStep g (countStep g
        (expLoop (countStep g) 1022 (bitsNew (s, k))).2.st).2).2.2
      = (expLoop (countStep g) 1022 (bitsNew (s, k))).2.st.2 + 2 := rfl
  simp only [getDoubleBits]
  split
  · split
    · dsimp only
      refine le_trans (getBit_count_le g _) ?_
      show (countStep g (countStep g
          (expLoop (countStep g) 1022 (bitsNew (s, k))).2.st).2).2.2 + 1 ≤ k + 35
      rw [hmant]
      omega
    · dsimp only
      refine le_trans (getBit_count_le g _) ?_
      show (countStep g (countStep g
          (expLoop (countStep g) 1022 (bitsNew (s, k))).2.st).2).2.2 + 1 ≤ k + 35
      rw [hmant]
      omega
  · dsimp only
    show (countStep g (countStep g
        (expLoop (countStep g) 1022 (bitsNew (s, k))).2.st).2).2.2 ≤ k + 35
    rw [hmant]
    omega

/-! ### Instance independence (claim C8) -/

theorem sideOps_dup_true : ∀ ops : List RngOp, sideOps true (dupOps ops) = ops := by
  intro ops
  induction ops with
  | nil => rfl
  | cons op ops ih =>
    simp only [dupOps, sideOps, List.filterMap_cons] at ih ⊢
    simp [ih]

theorem sideOps_dup_false : ∀ ops : List RngOp, sideOps false (dupOps ops) = ops := by
  intro ops
  induction ops with
  | nil => rfl
  | cons op ops ih =>
    simp only [dupOps, sideOps, List.filterMap_cons] at ih ⊢
    simp [ih]

/-- Noninterference: in any interleaved schedule over two instances, each
instance's outputs and final state depend only on its own operations and
its own starting state — there is no hidden shared state. -/
theorem runPair_proj {σA σB : Type} (gA : σA → ℕ × σA) (gB : σB → ℕ × σB) :
    ∀ (ops : List (Bool × RngOp)) (sA : σA) (sB : σB),
      sideTrace true (runPair gA gB ops (sA, sB)).1
          = (runOps gA (sideOps true ops) sA).1 ∧
        sideTrace false (runPair gA gB ops (sA, sB)).1
          = (runOps gB (sideOps false ops) sB).1 ∧
        (runPair gA gB ops (sA, sB)).2.1 = (runOps gA (sideOps true ops) sA).2 ∧
        (runPair gA gB ops (sA, sB)).2.2 = (runOps gB (sideOps false ops) sB).2 := by
  intro ops
  induction ops with
  | nil => intro sA sB; exact ⟨rfl, rfl, rfl, rfl⟩
  | cons hd tl ih =>
    intro sA sB
    obtain ⟨side, op⟩ := hd
    cases side
    · obtain ⟨ih1, ih2, ih3, ih4⟩ := ih sA (runOp gB op sB).2
      simp only [sideOps, sideTrace] at ih1 ih2 ih3 ih4 ⊢
      simp only [runPair, List.filterMap_cons, runOps,
        if_false, Bool.false_eq_true, reduceIte]
      refine ⟨ih1, ?_, ih3, ih4⟩
      simp [ih2]
    · obtain ⟨ih1, ih2, ih3, ih4⟩ := ih (runOp gA op sA).2 sB
      simp only [sideOps, sideTrace] at ih1 ih2 ih3 ih4 ⊢
      simp only [runPair, List.filterMap_cons, runOps,
        if_true, reduceIte]
      refine ⟨?_, ih2, ih3, ih4⟩
      simp [ih1]

/-- Two same-seed instances driven through the same operation schedule
produce identical output traces. -/
theorem runPair_dup_eq {σ : Type} (g : σ → ℕ × σ) (ops : List RngOp) (s : σ) :
    sideTrace true (runPair g g (dupOps ops) (s, s)).1
      = sideTrace false (runPair g g (dupOps ops) (s, s)).1 := by
  obtain ⟨h1, h2, _, _⟩ := runPair_proj g g (dupOps ops) s s
  rw [h1, h2, sideOps_dup_true, sideOps_dup_false]

/-! ### Evaluation bridges for concrete counterexamples -/

/-- The second component of the fill loop is the `n`-fold LCG iterate. -/
theorem cmwcFill_snd (n s : ℕ) : (cmwcFill n s).2 = lcgIter n s := by
  induction n generalizing s with
  | zero => rfl
  | succ n ih => simp [cmwcFill, lcgIter, ih]

/-- Splitting an LCG iteration into two runs. -/
theorem lcgIter_add (a b s : ℕ) : lcgIter (a + b) s = lcgIter b (lcgIter a s) := by
  induction a generalizing s with
  | zero => rw [Nat.zero_add]; rfl
  | succ a ih =>
    have h : a + 1 + b = (a + b) + 1 := by omega
    rw [h, lcgIter, lcgIter, ih]

/-- `lcgIter` peeled by one 512-step chunk, so that each chunk can be
evaluated by the kernel without exhausting its stack. -/
theorem lcgIter_split512 (n s : ℕ) :
    lcgIter (512 + n) s = lcgIter n (lcgIter 512 s) :=
  lcgIter_add 512 n s

/-- The carry seeded for `2363449`, as a literal. -/
theorem cmwcNew_c_2363449 : (cmwcNew 2363449).c = 321219694 := by
  have e1 : lcgIter 512 (2363449 % U32) = 2599779897 := by decide
  have e2 : lcgIter 512 2599779897 = 4004965433 := by decide
  have e3 : lcgIter 512 4004965433 = 2070436409 := by decide
  have e4 : lcgIter 512 2070436409 = 3238643769 := by decide
  have e5 : lcgIter 512 3238643769 = 1067136569 := by decide
  have e6 : lcgIter 512 1067136569 = 1998365753 := by decide
  have e7 : lcgIter 512 1998365753 = 3884847673 := by decide
  have e8 : lcgIter 512 3884847673 = 284131385 := by decide
  show lcg ((cmwcFill 4096 (2363449 % U32)).2) % 809430660 = 321219694
  rw [cmwcFill_snd]
  rw [show (4096 : ℕ) = 512 + (512 + (512 + (512 + (512 + (512 + (512 + 512))))))
    from by norm_num]
  rw [lcgIter_split512, e1, lcgIter_split512, e2, lcgIter_split512, e3,
    lcgIter_split512, e4, lcgIter_split512, e5, lcgIter_split512, e6,
    lcgIter_split512, e7, e8]
  decide

/-- The 9th CMWC output from seed 2363449, a value whose `f32` conversion
rounds up to `2^32`. -/
theorem cmwc_out9_2363449 : (getNumber (cmwcReach 2363449 8)).1 = 4294967216 := by
  have hnew : cmwcNew 2363449 =
      CMWCState.mk (cmwcFill 4096 (2363449 % U32)).1 321219694 0 := by
    have hc := cmwcNew_c_2363449
    show CMWCState.mk (cmwcFill 4096 (2363449 % U32)).1 ((cmwcNew 2363449).c) 0 = _
    rw [hc]
  show (getNumber ((getNumber ((getNumber ((getNumber ((getNumber ((getNumber
    ((getNumber ((getNumber ((getNumber (cmwcNew 2363449)).2)).2)).2)).2)).2)).2)).2)).2)).1
    = 4294967216
  rw [hnew]
  decide

/-- Rounding-model probes, cross-checked against IEEE-754 semantics. -/
example : f32ofU32 4294967295 = 2 ^ 32 := by decide

example : f32ofU32 4294967167 = 4294967040 := by decide

example : f32ofU32 4294967168 = 2 ^ 32 := by decide

example : RAND_DIV_DOUBLE_NUM = 2 ^ 52 + 2 ^ 20 := by decide

example : f64mulSig (4294967295 * RAND_DIV_DOUBLE_NUM) = 2 ^ 84 := by decide

example : f64mulSig (4294967294 * RAND_DIV_DOUBLE_NUM) < 2 ^ 84 := by decide

/-! ### The claims -/

/-- Claim C1 (code bug): the claim states the published MT19937 seeding
recurrence `table[i] = 1812433253 * (table[i-1] xor (table[i-1] >> 30)) + i`
(mod `2^32`), with `table[0] = s` and cursor 624.  The source misplaces the
index addition inside the multiplication
(`MT19937.wrapping_mul((prev ^ (prev >> 30)).wrapping_add(i))`), so already
for seed 0 the code's `table[1]` is `1812433253 * (0 + 1) = 1812433253`
where the claimed recurrence gives `1`.  `table[0]` and the cursor do match
the claim. -/
theorem claim_C1_seeding_divergence :
    (mtInit 0).getD 0 0 = 0 ∧ (mtNew 0).cur = 624 ∧
      (mtInit 0).getD 1 0 = 1812433253 ∧ (mtInitClaim 0).getD 1 0 = 1 ∧
      (mtInit 0).getD 1 0 ≠ (mtInitClaim 0).getD 1 0 :=
  ⟨by decide, rfl, by decide, by decide, by decide⟩

/-- Claim C3 (code bug): because of the seeding slip recorded at claim C1,
`MersenneTwister::new(1)` followed by one `get_int()` returns 2628793105,
not the documented MT19937 reference output 1791095845 for seed 1. -/
theorem claim_C3_reference_vector_mismatch :
    (mtRand (mtNew 1)).1 = 2628793105 ∧ (mtRand (mtNew 1)).1 ≠ 1791095845 := by
  have h : (mtRand (mtNew 1)).1 = 2628793105 := by decide
  exact ⟨h, by rw [h]; decide⟩

/-- Claim C5 (confirmed): `get_int` on a Mersenne Twister state equals the
claim's description — when the cursor is 624 the whole table is regenerated
in index order by the uniform twist recurrence (wrapped indices reading
already-updated entries) and the cursor resets to 0; every call tempers
`table[cur]` and increments the cursor; on reachable states the cursor
stays in `[0, 624]`. -/
theorem claim_C5_mt_draw_description :
    (∀ s : MTState, mtRand s = mtRandSpec s) ∧
      (∀ seed n : ℕ, (mtReach seed n).cur ≤ 624) :=
  ⟨mtRand_eq_spec, mtReach_cur_le⟩

/-- Claim C4 (confirmed): from every reachable state, a CMWC `get_int`
call performs exactly the claimed sequence — cursor `(cur+1) mod 4096`,
64-bit `t = 18782 * table[cur] + c`, `c := t >> 32`,
`x := low 32 bits of (t + c)`, the two ordered carry corrections, and
`table[cur] := 0xFFFFFFFE - x` stored and returned. -/
theorem claim_C4_cmwc_draw_description :
    ∀ seed n : ℕ, getNumber (cmwcReach seed n) = getNumberSpec (cmwcReach seed n) := by
  intro seed n
  obtain ⟨hc, hcur, hlen, hq⟩ := cmwcReach_inv seed n
  exact getNumber_eq_spec hlen hq (lt_trans hc (by norm_num [U32]))

/-- Claim C9 (confirmed): on every reachable CMWC state the carry is below
Marsaglia's bound 809430660; seeding reduces modulo that bound and every
draw leaves the carry at most 18784. -/
theorem claim_C9_carry_bound :
    ∀ seed n : ℕ,
      (cmwcReach seed n).c < 809430660 ∧ (cmwcReach seed (n + 1)).c ≤ 18784 := by
  intro seed n
  obtain ⟨hc, hcur, hlen, hq⟩ := cmwcReach_inv seed n
  refine ⟨hc, ?_⟩
  show (getNumber (cmwcReach seed n)).2.c ≤ 18784
  rw [getNumber_eq]
  exact gnC3_le hlen hq (lt_trans hc (by norm_num [U32]))

/-- Claim C10 (confirmed): on every reachable CMWC state none of the
unchecked `u32` arithmetic in `get_number` wraps: the carry (which is
incremented at most twice from `t >> 32`) stays far below `2^32`, the
wrapping forms of both correction branches coincide with their plain
(non-wrapping) forms, and at the complementary step `x ≤ 0xFFFFFFFE`, so
`0xFFFFFFFE - x` does not underflow (the wrapping subtraction equals the
plain one). -/
theorem claim_C10_no_unchecked_overflow :
    ∀ seed n : ℕ,
      gnC1 (cmwcReach seed n) + 2 < U32 ∧
        gnX1 (cmwcReach seed n)
            = (if gnX0 (cmwcReach seed n) < gnC1 (cmwcReach seed n)
              then gnX0 (cmwcReach seed n) + 1 else gnX0 (cmwcReach seed n)) ∧
        gnC3 (cmwcReach seed n)
            = (if gnX1 (cmwcReach seed n) = 4294967295
              then gnC2 (cmwcReach seed n) + 1 else gnC2 (cmwcReach seed n)) ∧
        gnX2 (cmwcReach seed n) ≤ 4294967294 ∧
        gnV (cmwcReach seed n) = 4294967294 - gnX2 (cmwcReach seed n) := by
  intro seed n
  obtain ⟨hc, hcur, hlen, hq⟩ := cmwcReach_inv seed n
  have hcU : (cmwcReach seed n).c < U32 := lt_trans hc (by norm_num [U32])
  have hc1 := gnC1_le hlen hq hcU
  refine ⟨by have e : U32 = 4294967296 := rfl; omega,
    gnX1_plain hlen hq hcU, gnC3_plain hlen hq hcU,
    gnX2_le hlen hq hcU, gnV_plain hlen hq hcU⟩

/-- Claim C6 (corrected) — counterexample: the claim asserts that the
4096th `get_int` call, which uses table index 0, reads an updated
(mutated) value.  In fact index 0 is never written during the first 4095
draws (they write indices 1..4095), so at seed 0 the state before the
4096th call still holds the original seeded `table[0]`, and that call
reads the original value, not a mutated one. -/
theorem claim_C6_counterexample :
    (cmwcReach 0 4095).cur = 4095 ∧
      ((cmwcReach 0 4095).cur + 1) &&& 4095 = 0 ∧
      (cmwcReach 0 4095).q.getD 0 0 = (cmwcNew 0).q.getD 0 0 := by
  have h := cmwcReach_cur 0 4095
  refine ⟨by rw [h], ?_, cmwcReach_q0 0 (le_refl 4095)⟩
  rw [h]
  decide

/-- Claim C6 (corrected) — amended: the cursor cycles modulo 4096 (the
`k`-th call uses index `k mod 4096`); the 4096th call visits index 0 for
the *first* time and reads the original seeded value; an index that is
genuinely revisited (e.g. index 1 at the 4097th call) yields the mutated
value stored by the earlier visit, not the original seeded value. -/
theorem claim_C6_amended_behavior :
    ∀ seed : ℕ,
      (∀ n : ℕ, (cmwcReach seed n).cur = n % 4096) ∧
        (cmwcReach seed 4095).q.getD 0 0 = (cmwcNew seed).q.getD 0 0 ∧
        (cmwcReach seed 4096).q.getD 1 0 = (getNumber (cmwcNew seed)).1 :=
  fun seed =>
    ⟨cmwcReach_cur seed, cmwcReach_q0 seed (le_refl 4095),
      cmwcReach_q1 seed (by omega) (le_refl 4096)⟩

/-- Claim C2 (corrected) — counterexample: `get_float` can return exactly
`1.0`.  In compat mode the CMWC state reached from seed 2363449 by 8 draws
yields `get_int() = 0xFFFFFFB0` on the next call; `0xFFFFFFB0 as f32`
rounds up to `2^32`, and `2^32 * RAND_DIV = 1.0` exactly, violating
`get_float() < 1.0`. -/
theorem claim_C2_range_counterexample :
    (getFloatCompat getNumber (cmwcReach 2363449 8)).1 = 1 ∧
      ¬ (getFloatCompat getNumber (cmwcReach 2363449 8)).1 < 1 := by
  have hout := cmwc_out9_2363449
  have hval : (getFloatCompat getNumber (cmwcReach 2363449 8)).1 = 1 := by
    show ((f32ofU32 (getNumber (cmwcReach 2363449 8)).1 : ℕ) : ℚ) / 2 ^ 32 = 1
    rw [hout]
    rw [show f32ofU32 4294967216 = 2 ^ 32 from by decide]
    push_cast
    norm_num
  exact ⟨hval, by rw [hval]; exact lt_irrefl 1⟩

/-- Claim C2 (corrected) — amended: for every generator (any step function
whose outputs are 32-bit) and every state, in both modes, `get_float` and
`get_double` produce values in the *closed* interval `[0, 1]`: never
negative, never above 1, but possibly exactly `1.0`. -/
theorem claim_C2_amended_range {σ : Type} (g : σ → ℕ × σ)
    (hg : ∀ s, (g s).1 < U32) (s : σ) :
    0 ≤ (getFloatCompat g s).1 ∧ (getFloatCompat g s).1 ≤ 1 ∧
      0 ≤ (getDoubleCompat g s).1 ∧ (getDoubleCompat g s).1 ≤ 1 ∧
      0 ≤ f32val (getFloatBits g s).1.1 (getFloatBits g s).1.2 ∧
      f32val (getFloatBits g s).1.1 (getFloatBits g s).1.2 ≤ 1 ∧
      0 ≤ f64val (getDoubleBits g s).1.1 (getDoubleBits g s).1.2 ∧
      f64val (getDoubleBits g s).1.1 (getDoubleBits g s).1.2 ≤ 1 := by
  obtain ⟨hf1, hf2⟩ := getFloatCompat_mem g hg s
  obtain ⟨hd1, hd2⟩ := getDoubleCompat_mem g hg s
  exact ⟨hf1, hf2, hd1, hd2,
    f32val_nonneg _ _, f32val_le_one (getFloatBits_char g s),
    f64val_nonneg _ _, f64val_le_one (getDoubleBits_char g s)⟩

/-- Witness for `claim_C2_amended_range` at the concrete generator
`n ↦ (n % 2^32, n + 1)` started at 0. -/
theorem claim_C2_amended_range_witness :
    0 ≤ (getFloatCompat (fun n : ℕ => (n % U32, n + 1)) 0).1 ∧
      (getFloatCompat (fun n : ℕ => (n % U32, n + 1)) 0).1 ≤ 1 ∧
      0 ≤ (getDoubleCompat (fun n : ℕ => (n % U32, n + 1)) 0).1 ∧
      (getDoubleCompat (fun n : ℕ => (n % U32, n + 1)) 0).1 ≤ 1 ∧
      0 ≤ f32val (getFloatBits (fun n : ℕ => (n % U32, n + 1)) 0).1.1
        (getFloatBits (fun n : ℕ => (n % U32, n + 1)) 0).1.2 ∧
      f32val (getFloatBits (fun n : ℕ => (n % U32, n + 1)) 0).1.1
        (getFloatBits (fun n : ℕ => (n % U32, n + 1)) 0).1.2 ≤ 1 ∧
      0 ≤ f64val (getDoubleBits (fun n : ℕ => (n % U32, n + 1)) 0).1.1
        (getDoubleBits (fun n : ℕ => (n % U32, n + 1)) 0).1.2 ∧
      f64val (getDoubleBits (fun n : ℕ => (n % U32, n + 1)) 0).1.1
        (getDoubleBits (fun n : ℕ => (n % U32, n + 1)) 0).1.2 ≤ 1 :=
  claim_C2_amended_range (fun n : ℕ => (n % U32, n + 1))
    (fun s => Nat.mod_lt s (by norm_num [U32])) 0

/-- Claim C7 (confirmed): for every generator and state, the precise-mode
exponent loop draws at most 126 bits for `f32` (1022 for `f64`) — the
instrumented loop `expLoopD` counts the draws and projects to the real
loop; in total at most 127 (resp. 1023) bits are drawn, the bias in each
case; and under a call-counting wrapper the whole of `get_float` makes at
most 6 `get_int` calls and `get_double` at most 35, so every sampling
operation is bounded. -/
theorem claim_C7_sampler_bounded :
    ∀ (σ : Type) (g : σ → ℕ × σ) (s : σ) (k : ℕ),
      (expLoopD g 126 (bitsNew s)).1 ≤ 126 ∧
        (expLoopD g 1022 (bitsNew s)).1 ≤ 1022 ∧
        (expLoopD g 126 (bitsNew s)).2 = expLoop g 126 (bitsNew s) ∧
        (expLoopD g 1022 (bitsNew s)).2 = expLoop g 1022 (bitsNew s) ∧
        getFloatDraws g s ≤ 127 ∧
        getDoubleDraws g s ≤ 1023 ∧
        (getFloatBits (countStep g) (s, k)).2.2 ≤ k + 6 ∧
        (getDoubleBits (countStep g) (s, k)).2.2 ≤ k + 35 :=
  fun _ g s k =>
    ⟨expLoopD_draws_le g 126 _, expLoopD_draws_le g 1022 _,
      expLoopD_proj g 126 _, expLoopD_proj g 1022 _,
      getFloatDraws_le g s, getDoubleDraws_le g s,
      getFloatBits_calls g s k, getDoubleBits_calls g s k⟩

/-- Claim C8 (confirmed): (i) noninterference — in any interleaved
schedule over two instances (of either algorithm), each instance's outputs
and final state are a function of its own operations and starting state
alone, with no hidden shared state; (ii) as a consequence, two Mersenne
Twister (resp. CMWC) instances constructed with the same seed and driven
through the same operation sequence produce bit-identical outputs at every
step. -/
theorem claim_C8_seed_determinism :
    (∀ (σA σB : Type) (gA : σA → ℕ × σA) (gB : σB → ℕ × σB)
        (ops : List (Bool × RngOp)) (sA : σA) (sB : σB),
        sideTrace true (runPair gA gB ops (sA, sB)).1
            = (runOps gA (sideOps true ops) sA).1 ∧
          sideTrace false (runPair gA gB ops (sA, sB)).1
            = (runOps gB (sideOps false ops) sB).1 ∧
          (runPair gA gB ops (sA, sB)).2.1 = (runOps gA (sideOps true ops) sA).2 ∧
          (runPair gA gB ops (sA, sB)).2.2 = (runOps gB (sideOps false ops) sB).2) ∧
      (∀ (seed : ℕ) (ops : List RngOp),
        sideTrace true (runPair mtRand mtRand (dupOps ops) (mtNew seed, mtNew seed)).1
          = sideTrace false
              (runPair mtRand mtRand (dupOps ops) (mtNew seed, mtNew seed)).1) ∧
      (∀ (seed : ℕ) (ops : List RngOp),
        sideTrace true
            (runPair getNumber getNumber (dupOps ops) (cmwcNew seed, cmwcNew seed)).1
          = sideTrace false
              (runPair getNumber getNumber (dupOps ops) (cmwcNew seed, cmwcNew seed)).1) :=
  ⟨fun _ _ gA gB ops sA sB => runPair_proj gA gB ops sA sB,
    fun seed ops => runPair_dup_eq mtRand ops (mtNew seed),
    fun seed ops => runPair_dup_eq getNumber ops (cmwcNew seed)⟩

end Doryen
